import Mathlib

/-!
Verification of the dvc-run pipeline execution engine.

Shallow embedding of the Python sources:
  src/dvc_run/freshness.py  (is_stage_fresh, _check_file_hash, get_freshness_reason)
  src/dvc_run/lock.py       (FileInfo, StageState, DVCLockParser._parse_stage,
                             DVCLockWriter.update_stage)
  src/dvc_run/executor.py   (ExecutionResult, ParallelExecutor._execute_stage,
                             _execute_level, execute)
  src/dvc_run/cli.py        (the keyword arguments of the ParallelExecutor call)

File-system effects (path existence, MD5 hashing, file sizes) are abstracted
into an explicit environment `FileSys` passed to every function that performs
I/O in the Python source.  Worker nondeterminism in `_execute_level` is made
explicit as a `completion` list: the order in which `as_completed` yields the
futures of the level.
-/

namespace DvcRun

/-- Modelled from the spec: the file-system and Hasher environment.
`src/dvc_run/hash.py` (compute_md5, compute_file_size) is not in the source
tree; spec section 4.1 specifies `digest(path)` as a function of the current
file-system contents that fails (raises) on missing or unreadable paths, and
`size(path)` as a total size function.  `exists_ p` models `Path(p).exists()`;
`md5 p = none` models `compute_md5` raising `FileNotFoundError`/`ValueError`;
`size p` models `compute_file_size(Path(p))`. -/
structure FileSys where
  exists_ : String → Bool
  md5 : String → Option String
  size : String → Nat

/-- Modelled from the spec: `Stage` (`src/dvc_run/stage.py` is not in the
source tree; spec section 3 defines its attributes: name, cmd, deps, outs,
optional desc). -/
structure Stage where
  name : String
  cmd : String
  deps : List String
  outs : List String
  desc : Option String := none

/-- src/dvc_run/lock.py, `FileInfo`: one tracked file entry. -/
structure FileInfo where
  path : String
  md5 : String
  size : Nat
deriving DecidableEq

/-- src/dvc_run/lock.py, `StageState`: recorded state of one stage.  The
Python dicts `deps`/`outs` (path -> FileInfo, unique keys, insertion order)
are modelled as association lists queried with `List.lookup`. -/
structure StageState where
  cmd : String
  deps : List (String × FileInfo) := []
  outs : List (String × FileInfo) := []
deriving DecidableEq

/-- Python dict lookup `d.get(k)` on an association list (keys unique in
every list arising from a Python dict, so the first match is the only
one). -/
def dget {α : Type} (l : List (String × α)) (k : String) : Option α :=
  match l with
  | [] => none
  | kv :: rest => if kv.1 = k then some kv.2 else dget rest k

/-- Python dict membership `k in d`. -/
def hasKey {α : Type} (l : List (String × α)) (k : String) : Bool :=
  match l with
  | [] => false
  | kv :: rest => if kv.1 = k then true else hasKey rest k

/-- Replace the value stored under an existing key, keeping its position. -/
def replaceKey {α : Type} (l : List (String × α)) (k : String) (v : α) :
    List (String × α) :=
  match l with
  | [] => []
  | kv :: rest =>
    if kv.1 = k then (k, v) :: replaceKey rest k v
    else kv :: replaceKey rest k v

/-- Python dict assignment `d[k] = v`: if the key is present its value is
replaced in place (the key keeps its position), otherwise the pair is
appended at the end. -/
def dictInsert {α : Type} (l : List (String × α)) (k : String) (v : α) :
    List (String × α) :=
  if hasKey l k then replaceKey l k v else l ++ [(k, v)]

/-! ## freshness.py -/

/-- src/dvc_run/freshness.py, `_check_file_hash`: true iff the file is
recorded, exists on disk, its hash computes, and the hash matches. -/
def check_file_hash (fs : FileSys) (file_path : String)
    (recorded_info : Option FileInfo) : Bool :=
  match recorded_info with
  | none => false
  | some info =>
    if fs.exists_ file_path = false then false
    else
      match fs.md5 file_path with
      | none => false
      | some h => h == info.md5

/-- src/dvc_run/freshness.py, `is_stage_fresh`. -/
def is_stage_fresh (fs : FileSys) (stage : Stage)
    (lock_state : Option StageState) : Bool :=
  match lock_state with
  | none => false
  | some st =>
    if stage.cmd == st.cmd then
      stage.deps.all (fun p => check_file_hash fs p (dget st.deps p)) &&
      stage.outs.all (fun p => check_file_hash fs p (dget st.outs p))
    else false

/-- src/dvc_run/freshness.py, `get_freshness_reason`, dependency loop
(lines 94-109): the first early `return` of the `for dep_path in
stage.deps` loop, or `none` when the loop falls through. -/
def reason_deps (fs : FileSys) (st : StageState) : List String → Option String
  | [] => none
  | p :: rest =>
    match dget st.deps p with
    | none => some ("new dependency: " ++ p)
    | some info =>
      if fs.exists_ p = false then some ("missing dependency: " ++ p)
      else
        match fs.md5 p with
        | none => some ("error reading dependency: " ++ p)
        | some h =>
          if h == info.md5 then reason_deps fs st rest
          else some ("dependency changed: " ++ p)

/-- src/dvc_run/freshness.py, `get_freshness_reason`, output loop
(lines 112-127). -/
def reason_outs (fs : FileSys) (st : StageState) : List String → Option String
  | [] => none
  | p :: rest =>
    match dget st.outs p with
    | none => some ("new output: " ++ p)
    | some info =>
      if fs.exists_ p = false then some ("missing output: " ++ p)
      else
        match fs.md5 p with
        | none => some ("error reading output: " ++ p)
        | some h =>
          if h == info.md5 then reason_outs fs st rest
          else some ("output changed: " ++ p)

/-- src/dvc_run/freshness.py, `get_freshness_reason`. -/
def get_freshness_reason (fs : FileSys) (stage : Stage)
    (lock_state : Option StageState) : String :=
  match lock_state with
  | none => "never run before"
  | some st =>
    if stage.cmd == st.cmd then
      match reason_deps fs st stage.deps with
      | some r => r
      | none =>
        match reason_outs fs st stage.outs with
        | some r => r
        | none => "up-to-date"
    else "command changed"

/-- Spec-side issue classifier for one dependency path, following the order
of predicates stated in spec section 4.4: recorded, exists on disk, digest
readable and matching.  Used only to state the refinement form of the
reason function. -/
def dep_issue_spec (fs : FileSys) (st : StageState) (p : String) :
    Option String :=
  match dget st.deps p with
  | none => some ("new dependency: " ++ p)
  | some info =>
    if fs.exists_ p = false then some ("missing dependency: " ++ p)
    else
      match fs.md5 p with
      | none => some ("error reading dependency: " ++ p)
      | some h => if h == info.md5 then none else some ("dependency changed: " ++ p)

/-- Spec-side issue classifier for one output path (spec section 4.4). -/
def out_issue_spec (fs : FileSys) (st : StageState) (p : String) :
    Option String :=
  match dget st.outs p with
  | none => some ("new output: " ++ p)
  | some info =>
    if fs.exists_ p = false then some ("missing output: " ++ p)
    else
      match fs.md5 p with
      | none => some ("error reading output: " ++ p)
      | some h => if h == info.md5 then none else some ("output changed: " ++ p)

/-- Spec-side reason function, written from the words of spec section 4.4:
the reason of the FIRST failing predicate in the stated order (recorded
state present; command unchanged; each dependency in declaration order;
each output in declaration order), or "up-to-date" when all hold. -/
def freshness_reason_spec (fs : FileSys) (stage : Stage)
    (lock_state : Option StageState) : String :=
  match lock_state with
  | none => "never run before"
  | some st =>
    if stage.cmd == st.cmd then
      match stage.deps.findSome? (dep_issue_spec fs st) with
      | some r => r
      | none =>
        match stage.outs.findSome? (out_issue_spec fs st) with
        | some r => r
        | none => "up-to-date"
    else "command changed"

/-! ## lock.py writer and parser -/

/-- One stage entry of the on-disk manifest: `cmd`, and the `deps`/`outs`
sequences, each omitted (`none`) when the corresponding hash dict was
empty (src/dvc_run/lock.py lines 134-156). -/
structure StageEntry where
  cmd : String
  deps : Option (List FileInfo) := none
  outs : Option (List FileInfo) := none
deriving DecidableEq

/-- The manifest document (`dvc.lock` after `yaml.safe_load`): an optional
`schema` tag and the `stages` mapping (stage name -> entry, insertion
order). -/
structure LockDoc where
  schema : Option String := none
  stages : List (String × StageEntry) := []
deriving DecidableEq

/-- Python tuple comparison on `(path, md5)` pairs, as used by
`sorted(deps_hashes.items())`: lexicographic. -/
def pairLe (a b : String × String) : Prop :=
  a.1 < b.1 ∨ (a.1 = b.1 ∧ a.2 ≤ b.2)

instance : DecidableRel pairLe := fun a b =>
  inferInstanceAs (Decidable (a.1 < b.1 ∨ (a.1 = b.1 ∧ a.2 ≤ b.2)))

instance : IsTotal (String × String) pairLe := by
  constructor
  intro a b
  rcases lt_trichotomy a.1 b.1 with h | h | h
  · exact Or.inl (Or.inl h)
  · rcases le_total a.2 b.2 with h2 | h2
    · exact Or.inl (Or.inr ⟨h, h2⟩)
    · exact Or.inr (Or.inr ⟨h.symm, h2⟩)
  · exact Or.inr (Or.inl h)

instance : IsTrans (String × String) pairLe := by
  constructor
  intro a b c hab hbc
  rcases hab with h1 | ⟨e1, l1⟩
  · rcases hbc with h2 | ⟨e2, _⟩
    · exact Or.inl (h1.trans h2)
    · exact Or.inl (e2 ▸ h1)
  · rcases hbc with h2 | ⟨e2, l2⟩
    · exact Or.inl (e1 ▸ h2)
    · exact Or.inr ⟨e1.trans e2, l1.trans l2⟩

/-- Python `sorted` on the items of a `{path: md5}` dict: a stable sort by
the lexicographic tuple order. -/
def sortPairs (l : List (String × String)) : List (String × String) :=
  List.insertionSort pairLe l

/-- src/dvc_run/lock.py, `DVCLockWriter.update_stage`, lines 137-156: the
list comprehension building the `{path, md5, size}` records from a hash
dict, in sorted item order. -/
def entryList (fs : FileSys) (hashes : List (String × String)) :
    List FileInfo :=
  (sortPairs hashes).map
    (fun pm => { path := pm.1, md5 := pm.2, size := fs.size pm.1 })

/-- src/dvc_run/lock.py, `DVCLockWriter.update_stage`, lines 133-156:
build the new stage entry from the given hash dicts; the `deps`/`outs`
sequences are omitted when the corresponding dict is empty. -/
def mk_stage_entry (fs : FileSys) (stage : Stage)
    (deps_hashes outs_hashes : List (String × String)) : StageEntry :=
  { cmd := stage.cmd
    deps := if deps_hashes.isEmpty then none else some (entryList fs deps_hashes)
    outs := if outs_hashes.isEmpty then none else some (entryList fs outs_hashes) }

/-- src/dvc_run/lock.py, `DVCLockWriter.update_stage`: read the current
document (`none` = file absent or empty), ensure `schema` and `stages`
exist, install the freshly built entry at `stages[stage.name]`, and return
the document that is atomically written back. -/
def update_stage (fs : FileSys) (doc : Option LockDoc) (stage : Stage)
    (deps_hashes outs_hashes : List (String × String)) : LockDoc :=
  let lock := doc.getD {}
  { schema := some (lock.schema.getD "2.0")
    stages := dictInsert lock.stages stage.name
      (mk_stage_entry fs stage deps_hashes outs_hashes) }

/-- src/dvc_run/lock.py, `DVCLockParser._parse_stage`, dict construction:
key each FileInfo record by its path, later records overwriting earlier
ones. -/
def dict_of (l : List FileInfo) : List (String × FileInfo) :=
  l.foldl (fun acc fi => dictInsert acc fi.path fi) []

/-- src/dvc_run/lock.py, `DVCLockParser._parse_stage`: re-read one written
stage entry into a `StageState`. -/
def parse_stage_entry (e : StageEntry) : StageState :=
  { cmd := e.cmd
    deps := dict_of (e.deps.getD [])
    outs := dict_of (e.outs.getD []) }

/-! ## executor.py -/

/-- src/dvc_run/executor.py, `ExecutionResult`. -/
structure ExecutionResult where
  stage_name : String
  success : Bool
  skipped : Bool := false
  message : String := ""
deriving DecidableEq

/-- src/dvc_run/dvc.py, `StageStatus` (as consulted on the legacy
`use_lock = False` path). -/
structure StageStatus where
  is_fresh : Bool
  message : String
deriving DecidableEq

/-- Outcome of `DVCClient.run_stage`: normal return, or the `RuntimeError`
it raises on failure. -/
inductive RunOutcome where
  | ok
  | err (msg : String)
deriving DecidableEq

/-- src/dvc_run/executor.py, `_execute_stage` lines 185-198: the
`deps_hashes` / `outs_hashes` dict built after a successful run; a path
whose hash computation raises is skipped (warn and omit). -/
def hash_paths_aux (fs : FileSys) (acc : List (String × String)) :
    List String → List (String × String)
  | [] => acc
  | p :: rest =>
    match fs.md5 p with
    | some h => hash_paths_aux fs (dictInsert acc p h) rest
    | none => hash_paths_aux fs acc rest

/-- The hash dict for a list of declared paths. -/
def hash_paths (fs : FileSys) (paths : List String) : List (String × String) :=
  hash_paths_aux fs [] paths

/-- src/dvc_run/executor.py, `ParallelExecutor._execute_stage`.
`use_lock`/`has_writer` mirror the `self.use_lock` flag and the presence of
`self.lock_writer`; `status` models `DVCClient.check_stage_status`;
`lock_states` is the pre-read freshness snapshot; `doc` is the manifest
document on disk at update time; `run` models `DVCClient.run_stage`.
Returns the `ExecutionResult` together with the manifest document written
by `update_stage` (`none` when no write happens). -/
def execute_stage (fs : FileSys) (use_lock has_writer : Bool)
    (status : String → StageStatus)
    (lock_states : List (String × StageState))
    (doc : Option LockDoc) (run : String → RunOutcome)
    (stage : Stage) : ExecutionResult × Option LockDoc :=
  let skip? : Option String :=
    if use_lock then
      let ls := dget lock_states stage.name
      if is_stage_fresh fs stage ls then some (get_freshness_reason fs stage ls)
      else none
    else
      let st := status stage.name
      if st.is_fresh then some st.message else none
  match skip? with
  | some reason =>
    ({ stage_name := stage.name, success := true, skipped := true,
       message := reason }, none)
  | none =>
    match run stage.name with
    | .err m =>
      ({ stage_name := stage.name, success := false, message := m }, none)
    | .ok =>
      if has_writer then
        let dh := hash_paths fs stage.deps
        let oh := hash_paths fs stage.outs
        ({ stage_name := stage.name, success := true, message := "completed" },
         some (update_stage fs doc stage dh oh))
      else
        ({ stage_name := stage.name, success := true, message := "completed" },
         none)

/-- src/dvc_run/executor.py, `_execute_level`: a single-stage level runs
inline; a multi-stage level submits every stage to the pool and collects
results in `as_completed` order, modelled by the `completion` list (the
level's names in worker-completion order). -/
def execute_level (step : String → ExecutionResult)
    (names completion : List String) : List ExecutionResult :=
  match names with
  | [n] => [step n]
  | _ => completion.map step

/-- A result counting as a failure in `execute` (line 98):
`not r.success and not r.skipped`. -/
def is_failure (r : ExecutionResult) : Bool :=
  !r.success && !r.skipped

/-- src/dvc_run/executor.py, `execute`, lines 91-103: walk the levels,
extend `results` with each level's results, and raise
`RuntimeError("Stage(s) failed: ...")` as soon as a level contains a
failure.  Each level is a pair (names in deterministic order, names in
worker-completion order).  Returns the accumulated `results` list at the
moment of return or raise, and the raised message if any. -/
def execute (step : String → ExecutionResult) :
    List (List String × List String) → List ExecutionResult × Option String
  | [] => ([], none)
  | (names, completion) :: rest =>
    let lr := execute_level step names completion
    let failures := lr.filter is_failure
    if failures.isEmpty then
      let tail := execute step rest
      (lr ++ tail.1, tail.2)
    else
      (lr, some ("Stage(s) failed: " ++
        String.intercalate ", " (failures.map (fun r => r.stage_name))))

/-- A sequence of further `update_stage` commits applied to a manifest
document, as performed by concurrently finishing stages of the same run. -/
def apply_updates (fs : FileSys) (doc : LockDoc)
    (us : List (Stage × List (String × String) × List (String × String))) :
    LockDoc :=
  us.foldl (fun d u => update_stage fs (some d) u.1 u.2.1 u.2.2) doc

/-! ## cli.py -/

/-- The keyword parameters accepted by `ParallelExecutor.__init__`
(src/dvc_run/executor.py lines 29-38). -/
def parallelExecutorInitKeywords : List String :=
  ["dag", "max_workers", "dry_run", "output", "lock_path", "use_lock",
   "update_lock"]

/-- The keyword arguments of the `ParallelExecutor(...)` call in `cli.main`
(src/dvc_run/cli.py lines 186-192), the last being `force=validate`. -/
def cliExecutorCallKeywords : List String :=
  ["dag", "max_workers", "dry_run", "output", "force"]

/-! ## Helper lemmas: association lists and dict insertion -/

theorem dget_mem {α : Type} {l : List (String × α)} {k : String} {v : α}
    (h : dget l k = some v) : (k, v) ∈ l := by
  induction l with
  | nil => simp [dget] at h
  | cons kv rest ih =>
    rw [dget] at h
    by_cases hk : kv.1 = k
    · rw [if_pos hk] at h
      obtain ⟨a, b⟩ := kv
      simp only [Option.some.injEq] at h
      subst hk
      subst h
      exact List.mem_cons_self _ _
    · rw [if_neg hk] at h
      exact List.mem_cons_of_mem _ (ih h)

theorem dget_replaceKey_self {α : Type} {l : List (String × α)} {k : String}
    (v : α) (h : hasKey l k = true) : dget (replaceKey l k v) k = some v := by
  induction l with
  | nil => simp [hasKey] at h
  | cons kv rest ih =>
    rw [hasKey] at h
    rw [replaceKey]
    by_cases hk : kv.1 = k
    · rw [if_pos hk]
      simp [dget]
    · rw [if_neg hk] at h ⊢
      rw [dget, if_neg hk]
      exact ih h

theorem dget_append_single {α : Type} {l : List (String × α)} {k : String}
    (v : α) (h : hasKey l k = false) : dget (l ++ [(k, v)]) k = some v := by
  induction l with
  | nil => simp [dget]
  | cons kv rest ih =>
    rw [hasKey] at h
    by_cases hk : kv.1 = k
    · rw [if_pos hk] at h
      exact absurd h (by simp)
    · rw [if_neg hk] at h
      rw [List.cons_append, dget, if_neg hk]
      exact ih h

theorem dget_dictInsert_self {α : Type} (l : List (String × α)) (k : String)
    (v : α) : dget (dictInsert l k v) k = some v := by
  unfold dictInsert
  by_cases h : hasKey l k = true
  · rw [if_pos h]
    exact dget_replaceKey_self v h
  · rw [if_neg h]
    exact dget_append_single v (Bool.of_not_eq_true h)

theorem dget_replaceKey_ne {α : Type} {l : List (String × α)} {k : String}
    (v : α) (q : String) (hq : q ≠ k) :
    dget (replaceKey l k v) q = dget l q := by
  induction l with
  | nil => rfl
  | cons kv rest ih =>
    rw [replaceKey]
    by_cases hk : kv.1 = k
    · have h1 : ¬ (k = q) := fun e => hq e.symm
      have h2 : ¬ (kv.1 = q) := fun e => hq (hk ▸ e).symm
      rw [if_pos hk]
      simp only [dget, h1, h2, if_false]
      exact ih
    · rw [if_neg hk]
      simp only [dget]
      by_cases h2 : kv.1 = q
      · simp only [h2, if_true, if_pos]
      · simp only [h2, if_false]
        exact ih

theorem dget_dictInsert_ne {α : Type} (l : List (String × α)) (k : String)
    (v : α) (q : String) (hq : q ≠ k) :
    dget (dictInsert l k v) q = dget l q := by
  unfold dictInsert
  by_cases h : hasKey l k = true
  · rw [if_pos h]
    exact dget_replaceKey_ne v q hq
  · rw [if_neg h]
    clear h
    induction l with
    | nil =>
      have h1 : ¬ (k = q) := fun e => hq e.symm
      simp [dget, h1]
    | cons kv rest ih =>
      rw [List.cons_append]
      simp only [dget]
      by_cases h2 : kv.1 = q
      · simp only [h2, if_true, if_pos]
      · simp only [h2, if_false]
        exact ih

theorem mem_replaceKey {α : Type} {l : List (String × α)} {k : String}
    {v : α} {kv : String × α} (h : kv ∈ replaceKey l k v) :
    kv ∈ l ∨ kv = (k, v) := by
  induction l with
  | nil => simp [replaceKey] at h
  | cons kv0 rest ih =>
    rw [replaceKey] at h
    by_cases hk : kv0.1 = k
    · rw [if_pos hk] at h
      rcases List.mem_cons.mp h with h | h
      · exact Or.inr h
      · rcases ih h with h | h
        · exact Or.inl (List.mem_cons_of_mem _ h)
        · exact Or.inr h
    · rw [if_neg hk] at h
      rcases List.mem_cons.mp h with h | h
      · exact Or.inl (h ▸ List.mem_cons_self _ _)
      · rcases ih h with h | h
        · exact Or.inl (List.mem_cons_of_mem _ h)
        · exact Or.inr h

theorem mem_dictInsert {α : Type} {l : List (String × α)} {k : String}
    {v : α} {kv : String × α} (h : kv ∈ dictInsert l k v) :
    kv ∈ l ∨ kv = (k, v) := by
  unfold dictInsert at h
  by_cases hk : hasKey l k = true
  · rw [if_pos hk] at h
    exact mem_replaceKey h
  · rw [if_neg hk] at h
    rcases List.mem_append.mp h with h | h
    · exact Or.inl h
    · exact Or.inr (by simpa using h)

theorem dget_dictInsert_isSome {α : Type} (l : List (String × α))
    (k : String) (v : α) (q : String) (h : (dget l q).isSome = true) :
    (dget (dictInsert l k v) q).isSome = true := by
  by_cases hq : q = k
  · rw [hq, dget_dictInsert_self]
    rfl
  · rw [dget_dictInsert_ne l k v q hq]
    exact h

/-! ## Helper lemmas: the post-success hash dicts -/

theorem dget_hash_paths_aux_of_md5 {fs : FileSys} {p h : String}
    (hmd : fs.md5 p = some h) :
    ∀ (paths : List String) (acc : List (String × String)),
      (p ∈ paths ∨ dget acc p = some h) →
      dget (hash_paths_aux fs acc paths) p = some h := by
  intro paths
  induction paths with
  | nil =>
    intro acc hin
    rcases hin with hin | hin
    · simp at hin
    · simpa [hash_paths_aux] using hin
  | cons q rest ih =>
    intro acc hin
    rw [hash_paths_aux]
    rcases hin with hin | hin
    · rcases List.mem_cons.mp hin with he | hm
      · subst he
        rw [hmd]
        exact ih _ (Or.inr (dget_dictInsert_self acc p h))
      · cases hq : fs.md5 q with
        | none => exact ih _ (Or.inl hm)
        | some h2 => exact ih _ (Or.inl hm)
    · by_cases hq : q = p
      · subst hq
        rw [hmd]
        exact ih _ (Or.inr (dget_dictInsert_self acc q h))
      · cases h2 : fs.md5 q with
        | none => exact ih _ (Or.inr hin)
        | some h3 =>
          refine ih _ (Or.inr ?_)
          rw [dget_dictInsert_ne acc q h3 p (fun e => hq e.symm)]
          exact hin

theorem dget_hash_paths {fs : FileSys} {paths : List String} {p h : String}
    (hp : p ∈ paths) (hmd : fs.md5 p = some h) :
    dget (hash_paths fs paths) p = some h :=
  dget_hash_paths_aux_of_md5 hmd paths [] (Or.inl hp)

theorem mem_hash_paths_aux {fs : FileSys} {kv : String × String} :
    ∀ (paths : List String) (acc : List (String × String)),
      kv ∈ hash_paths_aux fs acc paths →
      kv ∈ acc ∨ fs.md5 kv.1 = some kv.2 := by
  intro paths
  induction paths with
  | nil =>
    intro acc hm
    exact Or.inl (by simpa [hash_paths_aux] using hm)
  | cons q rest ih =>
    intro acc hm
    rw [hash_paths_aux] at hm
    cases hq : fs.md5 q with
    | none =>
      rw [hq] at hm
      exact ih _ hm
    | some h2 =>
      rw [hq] at hm
      rcases ih _ hm with hm2 | hm2
      · rcases mem_dictInsert hm2 with hm3 | hm3
        · exact Or.inl hm3
        · right
          rw [hm3]
          exact hq
      · exact Or.inr hm2

theorem mem_hash_paths {fs : FileSys} {paths : List String}
    {kv : String × String} (hm : kv ∈ hash_paths fs paths) :
    fs.md5 kv.1 = some kv.2 := by
  rcases mem_hash_paths_aux paths [] hm with h | h
  · simp at h
  · exact h

theorem dget_hash_paths_aux_none {fs : FileSys} {p : String}
    (hmd : fs.md5 p = none) :
    ∀ (paths : List String) (acc : List (String × String)),
      dget acc p = none → dget (hash_paths_aux fs acc paths) p = none := by
  intro paths
  induction paths with
  | nil =>
    intro acc hacc
    simpa [hash_paths_aux] using hacc
  | cons q rest ih =>
    intro acc hacc
    rw [hash_paths_aux]
    cases hq : fs.md5 q with
    | none => exact ih _ hacc
    | some h2 =>
      refine ih _ ?_
      have hqp : p ≠ q := fun e => by
        rw [e] at hmd
        rw [hmd] at hq
        exact Option.noConfusion hq
      rw [dget_dictInsert_ne acc q h2 p hqp]
      exact hacc

theorem dget_hash_paths_none {fs : FileSys} {paths : List String} {p : String}
    (hmd : fs.md5 p = none) : dget (hash_paths fs paths) p = none :=
  dget_hash_paths_aux_none hmd paths [] rfl

/-! ## Helper lemmas: the parsed dict of a written entry -/

theorem mem_dict_of_foldl {kv : String × FileInfo} :
    ∀ (l : List FileInfo) (acc : List (String × FileInfo)),
      kv ∈ l.foldl (fun acc fi => dictInsert acc fi.path fi) acc →
      kv ∈ acc ∨ ∃ fi ∈ l, kv = (fi.path, fi) := by
  intro l
  induction l with
  | nil =>
    intro acc hm
    exact Or.inl (by simpa using hm)
  | cons fi rest ih =>
    intro acc hm
    rw [List.foldl_cons] at hm
    rcases ih _ hm with hm2 | hm2
    · rcases mem_dictInsert hm2 with hm3 | hm3
      · exact Or.inl hm3
      · exact Or.inr ⟨fi, List.mem_cons_self _ _, hm3⟩
    · rcases hm2 with ⟨fi2, hfi2, he⟩
      exact Or.inr ⟨fi2, List.mem_cons_of_mem _ hfi2, he⟩

theorem dget_dict_of_mem {l : List FileInfo} {p : String} {fi : FileInfo}
    (h : dget (dict_of l) p = some fi) : fi ∈ l ∧ fi.path = p := by
  rcases mem_dict_of_foldl l [] (dget_mem h) with hm | hm
  · simp at hm
  · rcases hm with ⟨fi2, hfi2, he⟩
    obtain ⟨he1, he2⟩ := Prod.mk.injEq .. ▸ he
    subst he2
    exact ⟨hfi2, he1.symm⟩

theorem dget_dict_of_isSome_foldl {p : String} :
    ∀ (l : List FileInfo) (acc : List (String × FileInfo)),
      ((dget acc p).isSome = true ∨ ∃ fi ∈ l, fi.path = p) →
      ((dget (l.foldl (fun acc fi => dictInsert acc fi.path fi) acc) p).isSome
        = true) := by
  intro l
  induction l with
  | nil =>
    intro acc hin
    rcases hin with hin | hin
    · simpa using hin
    · simp at hin
  | cons fi rest ih =>
    intro acc hin
    rw [List.foldl_cons]
    rcases hin with hin | hin
    · exact ih _ (Or.inl (dget_dictInsert_isSome acc fi.path fi p hin))
    · rcases hin with ⟨fi2, hfi2, he⟩
      rcases List.mem_cons.mp hfi2 with he2 | hm
      · subst he2
        subst he
        refine ih _ (Or.inl ?_)
        rw [dget_dictInsert_self]
        rfl
      · exact ih _ (Or.inr ⟨fi2, hm, he⟩)

theorem dget_dict_of_isSome {l : List FileInfo} {p : String} {fi : FileInfo}
    (hm : fi ∈ l) (hp : fi.path = p) : (dget (dict_of l) p).isSome = true :=
  dget_dict_of_isSome_foldl l [] (Or.inr ⟨fi, hm, hp⟩)

/-! ## Helper lemmas: freshness -/

theorem check_file_hash_true_iff (fs : FileSys) (p : String)
    (info : Option FileInfo) :
    check_file_hash fs p info = true ↔
      ∃ i, info = some i ∧ fs.exists_ p = true ∧ fs.md5 p = some i.md5 := by
  cases info with
  | none => simp [check_file_hash]
  | some i =>
    rw [check_file_hash]
    by_cases he : fs.exists_ p = false
    · rw [if_pos he]
      simp [he]
    · rw [if_neg he]
      have he2 : fs.exists_ p = true := by
        cases hx : fs.exists_ p
        · exact absurd hx he
        · rfl
      cases hm : fs.md5 p with
      | none => simp [he2, hm]
      | some h =>
        simp only [hm, beq_iff_eq]
        constructor
        · intro hh
          exact ⟨i, rfl, he2, by rw [hh]⟩
        · rintro ⟨i2, he3, hex, he4⟩
          have hi : i = i2 := Option.some.inj he3
          subst hi
          exact Option.some.inj he4

theorem reason_deps_eq_none_iff (fs : FileSys) (st : StageState)
    (l : List String) :
    reason_deps fs st l = none ↔
      l.all (fun p => check_file_hash fs p (dget st.deps p)) = true := by
  induction l with
  | nil => simp [reason_deps]
  | cons p rest ih =>
    rw [reason_deps, List.all_cons, Bool.and_eq_true]
    cases hd : dget st.deps p with
    | none => simp [check_file_hash]
    | some info =>
      by_cases he : fs.exists_ p = false
      · simp [he, check_file_hash]
      · have he2 : fs.exists_ p = true := by
          cases hx : fs.exists_ p
          · exact absurd hx he
          · rfl
        cases hm : fs.md5 p with
        | none => simp [he2, hm, check_file_hash]
        | some h =>
          by_cases hh : (h == info.md5) = true
          · simp [he2, hm, hh, check_file_hash, ih]
          · simp [he2, hm, Bool.of_not_eq_true hh, check_file_hash]

theorem reason_outs_eq_none_iff (fs : FileSys) (st : StageState)
    (l : List String) :
    reason_outs fs st l = none ↔
      l.all (fun p => check_file_hash fs p (dget st.outs p)) = true := by
  induction l with
  | nil => simp [reason_outs]
  | cons p rest ih =>
    rw [reason_outs, List.all_cons, Bool.and_eq_true]
    cases hd : dget st.outs p with
    | none => simp [check_file_hash]
    | some info =>
      by_cases he : fs.exists_ p = false
      · simp [he, check_file_hash]
      · have he2 : fs.exists_ p = true := by
          cases hx : fs.exists_ p
          · exact absurd hx he
          · rfl
        cases hm : fs.md5 p with
        | none => simp [he2, hm, check_file_hash]
        | some h =>
          by_cases hh : (h == info.md5) = true
          · simp [he2, hm, hh, check_file_hash, ih]
          · simp [he2, hm, Bool.of_not_eq_true hh, check_file_hash]

theorem append_ne_up_to_date {s : String} (p : String)
    (h : 10 < s.length) : s ++ p ≠ "up-to-date" := by
  intro e
  have h1 : (s ++ p).length = 10 := by rw [e]; rfl
  rw [String.length_append] at h1
  omega

theorem reason_deps_ne_up_to_date {fs : FileSys} {st : StageState}
    {l : List String} {r : String} (h : reason_deps fs st l = some r) :
    r ≠ "up-to-date" := by
  induction l with
  | nil => simp [reason_deps] at h
  | cons p rest ih =>
    rw [reason_deps] at h
    cases hd : dget st.deps p with
    | none =>
      simp only [hd, Option.some.injEq] at h
      exact h ▸ append_ne_up_to_date p (by decide)
    | some info =>
      simp only [hd, Option.some.injEq] at h
      by_cases he : fs.exists_ p = false
      · rw [if_pos he] at h
        simp only [Option.some.injEq] at h
        exact h ▸ append_ne_up_to_date p (by decide)
      · rw [if_neg he] at h
        cases hm : fs.md5 p with
        | none =>
          simp only [hm, Option.some.injEq] at h
          exact h ▸ append_ne_up_to_date p (by decide)
        | some hh =>
          simp only [hm] at h
          by_cases hb : (hh == info.md5) = true
          · rw [if_pos hb] at h
            exact ih h
          · rw [if_neg hb] at h
            simp only [Option.some.injEq] at h
            exact h ▸ append_ne_up_to_date p (by decide)

theorem reason_outs_ne_up_to_date {fs : FileSys} {st : StageState}
    {l : List String} {r : String} (h : reason_outs fs st l = some r) :
    r ≠ "up-to-date" := by
  induction l with
  | nil => simp [reason_outs] at h
  | cons p rest ih =>
    rw [reason_outs] at h
    cases hd : dget st.outs p with
    | none =>
      simp only [hd, Option.some.injEq] at h
      exact h ▸ append_ne_up_to_date p (by decide)
    | some info =>
      simp only [hd, Option.some.injEq] at h
      by_cases he : fs.exists_ p = false
      · rw [if_pos he] at h
        simp only [Option.some.injEq] at h
        exact h ▸ append_ne_up_to_date p (by decide)
      · rw [if_neg he] at h
        cases hm : fs.md5 p with
        | none =>
          simp only [hm, Option.some.injEq] at h
          exact h ▸ append_ne_up_to_date p (by decide)
        | some hh =>
          simp only [hm] at h
          by_cases hb : (hh == info.md5) = true
          · rw [if_pos hb] at h
            exact ih h
          · rw [if_neg hb] at h
            simp only [Option.some.injEq] at h
            exact h ▸ append_ne_up_to_date p (by decide)

theorem reason_deps_eq_findSome (fs : FileSys) (st : StageState)
    (l : List String) :
    reason_deps fs st l = l.findSome? (dep_issue_spec fs st) := by
  induction l with
  | nil => rfl
  | cons p rest ih =>
    rw [reason_deps, List.findSome?_cons]
    unfold dep_issue_spec
    cases hd : dget st.deps p with
    | none => rfl
    | some info =>
      dsimp only
      by_cases he : fs.exists_ p = false
      · rw [if_pos he, if_pos he]
      · rw [if_neg he, if_neg he]
        cases hm : fs.md5 p with
        | none => rfl
        | some h =>
          dsimp only
          by_cases hb : (h == info.md5) = true
          · rw [if_pos hb, if_pos hb]
            exact ih
          · rw [if_neg hb, if_neg hb]

theorem reason_outs_eq_findSome (fs : FileSys) (st : StageState)
    (l : List String) :
    reason_outs fs st l = l.findSome? (out_issue_spec fs st) := by
  induction l with
  | nil => rfl
  | cons p rest ih =>
    rw [reason_outs, List.findSome?_cons]
    unfold out_issue_spec
    cases hd : dget st.outs p with
    | none => rfl
    | some info =>
      dsimp only
      by_cases he : fs.exists_ p = false
      · rw [if_pos he, if_pos he]
      · rw [if_neg he, if_neg he]
        cases hm : fs.md5 p with
        | none => rfl
        | some h =>
          dsimp only
          by_cases hb : (h == info.md5) = true
          · rw [if_pos hb, if_pos hb]
            exact ih
          · rw [if_neg hb, if_neg hb]

/-! ## Claim C1 -/

/-- C1: `is_stage_fresh` returns true if and only if the recorded state is
present, the stage command equals the recorded command byte-for-byte, and
every declared dependency path and every declared output path is recorded
in the corresponding mapping, exists on disk, and has a computed digest
equal to the recorded md5. -/
theorem is_stage_fresh_iff (fs : FileSys) (stage : Stage)
    (ls : Option StageState) :
    is_stage_fresh fs stage ls = true ↔
      ∃ st, ls = some st ∧ stage.cmd = st.cmd ∧
        (∀ p ∈ stage.deps, ∃ info, dget st.deps p = some info ∧
          fs.exists_ p = true ∧ fs.md5 p = some info.md5) ∧
        (∀ p ∈ stage.outs, ∃ info, dget st.outs p = some info ∧
          fs.exists_ p = true ∧ fs.md5 p = some info.md5) := by
  cases ls with
  | none => simp [is_stage_fresh]
  | some st =>
    rw [is_stage_fresh]
    by_cases hc : stage.cmd = st.cmd
    · have hb : (stage.cmd == st.cmd) = true := by simpa using hc
      rw [if_pos hb, Bool.and_eq_true]
      constructor
      · rintro ⟨h1, h2⟩
        refine ⟨st, rfl, hc, ?_, ?_⟩
        · intro p hp
          exact (check_file_hash_true_iff fs p _).mp
            (List.all_eq_true.mp h1 p hp)
        · intro p hp
          exact (check_file_hash_true_iff fs p _).mp
            (List.all_eq_true.mp h2 p hp)
      · rintro ⟨st2, he, _, hd, ho⟩
        have hst : st = st2 := Option.some.inj he
        subst hst
        constructor
        · exact List.all_eq_true.mpr fun p hp =>
            (check_file_hash_true_iff fs p _).mpr (hd p hp)
        · exact List.all_eq_true.mpr fun p hp =>
            (check_file_hash_true_iff fs p _).mpr (ho p hp)
    · have hb : ¬ ((stage.cmd == st.cmd) = true) := by simpa using hc
      rw [if_neg hb]
      constructor
      · intro h
        exact absurd h (by simp)
      · rintro ⟨st2, he, hc2, _, _⟩
        have hst : st = st2 := Option.some.inj he
        subst hst
        exact absurd hc2 hc

/-! ## Claim C7 -/

/-- C7: `get_freshness_reason` returns the reason string of the first
failing freshness predicate in the specified evaluation order (recorded
state present, then command, then each dependency in declaration order,
then each output in declaration order, with the recorded / exists /
digest-comparison checks per path), formalised as equality with the
spec-side first-failure function `freshness_reason_spec`; and it returns
"up-to-date" exactly when `is_stage_fresh` returns true. -/
theorem get_freshness_reason_correct :
    (∀ (fs : FileSys) (stage : Stage) (ls : Option StageState),
      get_freshness_reason fs stage ls = freshness_reason_spec fs stage ls)
    ∧ (∀ (fs : FileSys) (stage : Stage) (ls : Option StageState),
      get_freshness_reason fs stage ls = "up-to-date" ↔
        is_stage_fresh fs stage ls = true) := by
  constructor
  · intro fs stage ls
    cases ls with
    | none => rfl
    | some st =>
      rw [get_freshness_reason, freshness_reason_spec,
        reason_deps_eq_findSome, reason_outs_eq_findSome]
  · intro fs stage ls
    cases ls with
    | none =>
      rw [get_freshness_reason, is_stage_fresh]
      constructor
      · intro h
        exact absurd h (by decide)
      · intro h
        exact absurd h (by simp)
    | some st =>
      rw [get_freshness_reason, is_stage_fresh]
      by_cases hc : (stage.cmd == st.cmd) = true
      · rw [if_pos hc, if_pos hc]
        cases hrd : reason_deps fs st stage.deps with
        | some r =>
          dsimp only
          constructor
          · intro he
            exact absurd he (reason_deps_ne_up_to_date hrd)
          · intro hb
            rw [Bool.and_eq_true] at hb
            have hn := (reason_deps_eq_none_iff fs st stage.deps).mpr hb.1
            rw [hn] at hrd
            exact Option.noConfusion hrd
        | none =>
          dsimp only
          cases hro : reason_outs fs st stage.outs with
          | some r =>
            dsimp only
            constructor
            · intro he
              exact absurd he (reason_outs_ne_up_to_date hro)
            · intro hb
              rw [Bool.and_eq_true] at hb
              have hn := (reason_outs_eq_none_iff fs st stage.outs).mpr hb.2
              rw [hn] at hro
              exact Option.noConfusion hro
          | none =>
            dsimp only
            constructor
            · intro _
              rw [Bool.and_eq_true]
              exact ⟨(reason_deps_eq_none_iff fs st stage.deps).mp hrd,
                (reason_outs_eq_none_iff fs st stage.outs).mp hro⟩
            · intro _
              rfl
      · rw [if_neg hc, if_neg hc]
        constructor
        · intro he
          exact absurd he (by decide)
        · intro hb
          exact absurd hb (by simp)

/-! ## Claim C2 -/

theorem dget_update_stage_self (fs : FileSys) (doc : Option LockDoc)
    (stage : Stage) (dh oh : List (String × String)) :
    dget (update_stage fs doc stage dh oh).stages stage.name =
      some (mk_stage_entry fs stage dh oh) := by
  simp only [update_stage]
  exact dget_dictInsert_self _ _ _

theorem dget_update_stage_ne (fs : FileSys) (doc : Option LockDoc)
    (stage : Stage) (dh oh : List (String × String)) (n : String)
    (hn : n ≠ stage.name) :
    dget (update_stage fs doc stage dh oh).stages n =
      dget (doc.getD {}).stages n := by
  simp only [update_stage]
  exact dget_dictInsert_ne _ _ _ n hn

/-- C2: `update_stage` installs the entry built from the given hashes at
`stages[stage.name]`, replacing any prior value, and leaves the entry of
every other stage name unchanged. -/
theorem update_stage_installs_and_preserves (fs : FileSys)
    (doc : Option LockDoc) (stage : Stage)
    (dh oh : List (String × String)) :
    dget (update_stage fs doc stage dh oh).stages stage.name =
      some (mk_stage_entry fs stage dh oh)
    ∧ ∀ n, n ≠ stage.name →
        dget (update_stage fs doc stage dh oh).stages n =
          dget (doc.getD {}).stages n :=
  ⟨dget_update_stage_self fs doc stage dh oh,
   fun n hn => dget_update_stage_ne fs doc stage dh oh n hn⟩

/-- C2 witness: on a manifest holding entries for "a" and "b", updating
stage "a" replaces its entry with the freshly built one and leaves the
entry of "b" untouched. -/
theorem update_stage_installs_and_preserves_witness :
    dget (update_stage ⟨fun _ => true, fun _ => none, fun _ => 0⟩
        (some ⟨some "2.0",
          [("a", ⟨"old", none, none⟩), ("b", ⟨"x", none, none⟩)]⟩)
        ⟨"a", "c", [], [], none⟩ [] []).stages "a" =
      some (mk_stage_entry ⟨fun _ => true, fun _ => none, fun _ => 0⟩
        ⟨"a", "c", [], [], none⟩ [] [])
    ∧ dget (update_stage ⟨fun _ => true, fun _ => none, fun _ => 0⟩
        (some ⟨some "2.0",
          [("a", ⟨"old", none, none⟩), ("b", ⟨"x", none, none⟩)]⟩)
        ⟨"a", "c", [], [], none⟩ [] []).stages "b" =
      some ⟨"x", none, none⟩ := by
  have h := update_stage_installs_and_preserves
    ⟨fun _ => true, fun _ => none, fun _ => 0⟩
    (some ⟨some "2.0",
      [("a", ⟨"old", none, none⟩), ("b", ⟨"x", none, none⟩)]⟩)
    ⟨"a", "c", [], [], none⟩ [] []
  refine ⟨h.1, ?_⟩
  rw [h.2 "b" (by decide)]
  decide

/-! ## Claim C9 -/

theorem pairLe_fst_le {a b : String × String} (h : pairLe a b) :
    a.1 ≤ b.1 := by
  rcases h with h | ⟨h, _⟩
  · exact le_of_lt h
  · exact le_of_eq h

theorem entryList_sorted (fs : FileSys) (l : List (String × String)) :
    (entryList fs l).Pairwise (fun a b => a.path ≤ b.path) := by
  unfold entryList sortPairs
  rw [List.pairwise_map]
  exact (List.sorted_insertionSort pairLe l).imp fun h => pairLe_fst_le h

theorem entryList_perm (fs : FileSys) (l : List (String × String)) :
    List.Perm ((entryList fs l).map (fun fi => (fi.path, fi.md5))) l := by
  unfold entryList sortPairs
  rw [List.map_map]
  have he : ((fun fi : FileInfo => (fi.path, fi.md5)) ∘
      (fun pm : String × String =>
        ({ path := pm.1, md5 := pm.2, size := fs.size pm.1 } : FileInfo)))
      = id := funext fun pm => rfl
  rw [he, List.map_id]
  exact List.perm_insertionSort pairLe l

theorem entryList_size (fs : FileSys) (l : List (String × String)) :
    ∀ fi ∈ entryList fs l, fi.size = fs.size fi.path := by
  intro fi hm
  rcases List.mem_map.mp hm with ⟨pm, _, he⟩
  rw [← he]

/-- C9 counterexample: calling `update_stage` on a manifest whose prior
schema tag is "1.0" writes a manifest whose schema tag is still "1.0",
not "2.0" — the writer only inserts "2.0" when the tag is absent. -/
theorem update_stage_schema_not_two_cx :
    (update_stage ⟨fun _ => true, fun _ => none, fun _ => 0⟩
        (some ⟨some "1.0", []⟩) ⟨"a", "c", [], [], none⟩ [] []).schema
      = some "1.0"
    ∧ (some "1.0" : Option String) ≠ some "2.0" :=
  ⟨rfl, by decide⟩

/-- C9 amended: the written manifest carries a schema tag — "2.0" when the
prior manifest had none, otherwise the prior value preserved — and a
stages mapping holding the installed entry, which consists of `cmd`
followed by deps and outs sequences of `{path, md5, size}` records sorted
by path in ascending order, each sequence omitted entirely when the
corresponding hash mapping is empty. -/
theorem update_stage_manifest_shape (fs : FileSys) (doc : Option LockDoc)
    (stage : Stage) (dh oh : List (String × String)) :
    (update_stage fs doc stage dh oh).schema
        = some ((doc.getD {}).schema.getD "2.0")
    ∧ dget (update_stage fs doc stage dh oh).stages stage.name
        = some (mk_stage_entry fs stage dh oh)
    ∧ (mk_stage_entry fs stage dh oh).cmd = stage.cmd
    ∧ (dh.isEmpty = true → (mk_stage_entry fs stage dh oh).deps = none)
    ∧ (dh.isEmpty = false →
        (mk_stage_entry fs stage dh oh).deps = some (entryList fs dh))
    ∧ (oh.isEmpty = true → (mk_stage_entry fs stage dh oh).outs = none)
    ∧ (oh.isEmpty = false →
        (mk_stage_entry fs stage dh oh).outs = some (entryList fs oh))
    ∧ (∀ hl : List (String × String),
        (entryList fs hl).Pairwise (fun a b => a.path ≤ b.path)
        ∧ List.Perm ((entryList fs hl).map (fun fi => (fi.path, fi.md5))) hl
        ∧ ∀ fi ∈ entryList fs hl, fi.size = fs.size fi.path) := by
  refine ⟨rfl, dget_update_stage_self fs doc stage dh oh, rfl, ?_, ?_, ?_, ?_,
    fun hl => ⟨entryList_sorted fs hl, entryList_perm fs hl,
      entryList_size fs hl⟩⟩
  · intro h
    simp [mk_stage_entry, h]
  · intro h
    simp [mk_stage_entry, h]
  · intro h
    simp [mk_stage_entry, h]
  · intro h
    simp [mk_stage_entry, h]

/-- C9 witness: a concrete two-dependency update produces a deps sequence
permuting the given hashes, and an omitted outs sequence. -/
theorem update_stage_manifest_shape_witness :
    (mk_stage_entry ⟨fun _ => true, fun _ => none, fun _ => 1⟩
        ⟨"a", "c", [], [], none⟩ [("b", "m2"), ("a", "m1")] []).deps
      = some (entryList ⟨fun _ => true, fun _ => none, fun _ => 1⟩
          [("b", "m2"), ("a", "m1")])
    ∧ List.Perm ((entryList ⟨fun _ => true, fun _ => none, fun _ => 1⟩
        [("b", "m2"), ("a", "m1")]).map (fun fi => (fi.path, fi.md5)))
        [("b", "m2"), ("a", "m1")]
    ∧ (mk_stage_entry ⟨fun _ => true, fun _ => none, fun _ => 1⟩
        ⟨"a", "c", [], [], none⟩ [("b", "m2"), ("a", "m1")] []).outs
      = none := by
  have h := update_stage_manifest_shape
    ⟨fun _ => true, fun _ => none, fun _ => 1⟩ (some ⟨none, []⟩)
    ⟨"a", "c", [], [], none⟩ [("b", "m2"), ("a", "m1")] []
  exact ⟨h.2.2.2.2.1 (by decide),
    (h.2.2.2.2.2.2.2 [("b", "m2"), ("a", "m1")]).2.1,
    h.2.2.2.2.2.1 rfl⟩

/-! ## Claim C4 -/

theorem check_file_hash_entry (fs : FileSys) (paths : List String)
    (p : String) (hp : p ∈ paths) (hx : fs.exists_ p = true)
    {h : String} (hm : fs.md5 p = some h) :
    check_file_hash fs p
      (dget (dict_of (entryList fs (hash_paths fs paths))) p) = true := by
  have hdg : dget (hash_paths fs paths) p = some h := dget_hash_paths hp hm
  have hmem : (p, h) ∈ hash_paths fs paths := dget_mem hdg
  have hmem2 : (p, h) ∈ sortPairs (hash_paths fs paths) := by
    unfold sortPairs
    exact (List.perm_insertionSort pairLe _).mem_iff.mpr hmem
  have hmem3 : ({ path := p, md5 := h, size := fs.size p } : FileInfo) ∈
      entryList fs (hash_paths fs paths) := by
    unfold entryList
    exact List.mem_map.mpr ⟨(p, h), hmem2, rfl⟩
  have hsome := dget_dict_of_isSome hmem3 rfl
  rcases Option.isSome_iff_exists.mp hsome with ⟨fi, hfi⟩
  obtain ⟨hfl, hfp⟩ := dget_dict_of_mem hfi
  unfold entryList at hfl
  rcases List.mem_map.mp hfl with ⟨pm, hpm, he⟩
  have hpm2 : pm ∈ hash_paths fs paths := by
    unfold sortPairs at hpm
    exact (List.perm_insertionSort pairLe _).mem_iff.mp hpm
  have hmd5pm : fs.md5 pm.1 = some pm.2 := mem_hash_paths hpm2
  have hp1 : pm.1 = p := by
    rw [← he] at hfp
    exact hfp
  have hfim : fi.md5 = pm.2 := by
    rw [← he]
  have hval : fs.md5 p = some pm.2 := hp1 ▸ hmd5pm
  apply (check_file_hash_true_iff fs p _).mpr
  refine ⟨fi, hfi, hx, ?_⟩
  rw [hfim]
  exact hval

theorem fresh_after_commit (fs : FileSys) (stage : Stage)
    (hdeps : ∀ p ∈ stage.deps, fs.exists_ p = true ∧ (fs.md5 p).isSome = true)
    (houts : ∀ p ∈ stage.outs, fs.exists_ p = true ∧ (fs.md5 p).isSome = true) :
    is_stage_fresh fs stage
      (some (parse_stage_entry (mk_stage_entry fs stage
        (hash_paths fs stage.deps) (hash_paths fs stage.outs)))) = true := by
  rw [is_stage_fresh]
  have hcmd : (stage.cmd == (parse_stage_entry (mk_stage_entry fs stage
      (hash_paths fs stage.deps) (hash_paths fs stage.outs))).cmd) = true := by
    simp [parse_stage_entry, mk_stage_entry]
  rw [if_pos hcmd, Bool.and_eq_true]
  constructor
  · apply List.all_eq_true.mpr
    intro p hp
    obtain ⟨hx, hs⟩ := hdeps p hp
    rcases Option.isSome_iff_exists.mp hs with ⟨h, hm⟩
    have hne : (hash_paths fs stage.deps).isEmpty = false := by
      have hdg := dget_hash_paths hp hm
      cases hhp : hash_paths fs stage.deps with
      | nil =>
        rw [hhp] at hdg
        exact absurd hdg (by simp [dget])
      | cons a l => rfl
    have hdeq : (parse_stage_entry (mk_stage_entry fs stage
        (hash_paths fs stage.deps) (hash_paths fs stage.outs))).deps
        = dict_of (entryList fs (hash_paths fs stage.deps)) := by
      simp [parse_stage_entry, mk_stage_entry, hne]
    rw [hdeq]
    exact check_file_hash_entry fs stage.deps p hp hx hm
  · apply List.all_eq_true.mpr
    intro p hp
    obtain ⟨hx, hs⟩ := houts p hp
    rcases Option.isSome_iff_exists.mp hs with ⟨h, hm⟩
    have hne : (hash_paths fs stage.outs).isEmpty = false := by
      have hdg := dget_hash_paths hp hm
      cases hhp : hash_paths fs stage.outs with
      | nil =>
        rw [hhp] at hdg
        exact absurd hdg (by simp [dget])
      | cons a l => rfl
    have hdeq : (parse_stage_entry (mk_stage_entry fs stage
        (hash_paths fs stage.deps) (hash_paths fs stage.outs))).outs
        = dict_of (entryList fs (hash_paths fs stage.outs)) := by
      simp [parse_stage_entry, mk_stage_entry, hne]
    rw [hdeq]
    exact check_file_hash_entry fs stage.outs p hp hx hm

theorem dget_apply_updates_ne (fs : FileSys)
    (later : List (Stage × List (String × String) × List (String × String)))
    (n : String) :
    ∀ (d0 : LockDoc), (∀ u ∈ later, u.1.name ≠ n) →
      dget (apply_updates fs d0 later).stages n = dget d0.stages n := by
  induction later with
  | nil =>
    intro d0 _
    rfl
  | cons u rest ih =>
    intro d0 h
    simp only [apply_updates, List.foldl_cons]
    have step := ih (update_stage fs (some d0) u.1 u.2.1 u.2.2)
      (fun v hv => h v (List.mem_cons_of_mem u hv))
    simp only [apply_updates] at step
    rw [step]
    rw [dget_update_stage_ne fs (some d0) u.1 u.2.1 u.2.2 n
      (fun e => h u (List.mem_cons_self u rest) e.symm)]
    rfl

/-- C4 counterexample: a stage whose declared dependency "d" never exists
on disk is executed (runner succeeds, result success and not skipped, a
manifest entry is committed), yet immediately afterwards `is_stage_fresh`
is false against the re-read manifest entry for the stage: the
uncomputable hash was omitted from the entry, so a second run would
re-execute this executed stage, contradicting the claim. -/
theorem executed_stage_not_fresh_cx :
    ((execute_stage ⟨fun _ => false, fun _ => none, fun _ => 0⟩ true true
        (fun _ => ⟨false, ""⟩) [] none (fun _ => RunOutcome.ok)
        ⟨"a", "c", ["d"], [], none⟩).1.success = true)
    ∧ ((execute_stage ⟨fun _ => false, fun _ => none, fun _ => 0⟩ true true
        (fun _ => ⟨false, ""⟩) [] none (fun _ => RunOutcome.ok)
        ⟨"a", "c", ["d"], [], none⟩).1.skipped = false)
    ∧ ((execute_stage ⟨fun _ => false, fun _ => none, fun _ => 0⟩ true true
        (fun _ => ⟨false, ""⟩) [] none (fun _ => RunOutcome.ok)
        ⟨"a", "c", ["d"], [], none⟩).2.map (fun d =>
          is_stage_fresh ⟨fun _ => false, fun _ => none, fun _ => 0⟩
            ⟨"a", "c", ["d"], [], none⟩
            ((dget d.stages "a").map parse_stage_entry)) = some false) := by
  refine ⟨rfl, rfl, ?_⟩
  decide

/-- C4 amended: after a non-skipped successful execution of a stage whose
declared deps and outs all exist and are hashable at commit time, and
after any further manifest updates by stages with other names, the stage
is fresh against its re-read manifest entry (a second run would skip it).
Without the hashability proviso the property fails (see the
counterexample): an unhashable declared path is omitted from the entry
and the stage is re-executed on the next run. -/
theorem executed_stage_fresh_after (fs : FileSys)
    (status : String → StageStatus)
    (lock_states : List (String × StageState)) (doc : Option LockDoc)
    (run : String → RunOutcome) (stage : Stage)
    (later : List (Stage × List (String × String) × List (String × String)))
    (hskip : is_stage_fresh fs stage (dget lock_states stage.name) = false)
    (hrun : run stage.name = RunOutcome.ok)
    (hlater : ∀ u ∈ later, u.1.name ≠ stage.name)
    (hdeps : ∀ p ∈ stage.deps, fs.exists_ p = true ∧ (fs.md5 p).isSome = true)
    (houts : ∀ p ∈ stage.outs, fs.exists_ p = true ∧ (fs.md5 p).isSome = true) :
    (execute_stage fs true true status lock_states doc run stage).1 =
      ⟨stage.name, true, false, "completed"⟩
    ∧ ∃ d0,
      (execute_stage fs true true status lock_states doc run stage).2 = some d0
      ∧ is_stage_fresh fs stage
          ((dget (apply_updates fs d0 later).stages stage.name).map
            parse_stage_entry) = true := by
  have hexec : execute_stage fs true true status lock_states doc run stage =
      (⟨stage.name, true, false, "completed"⟩,
       some (update_stage fs doc stage (hash_paths fs stage.deps)
         (hash_paths fs stage.outs))) := by
    simp only [execute_stage, hskip, hrun, if_true, if_false]
    rfl
  refine ⟨by rw [hexec],
    update_stage fs doc stage (hash_paths fs stage.deps)
      (hash_paths fs stage.outs),
    by rw [hexec], ?_⟩
  rw [dget_apply_updates_ne fs later stage.name _ hlater,
    dget_update_stage_self]
  exact fresh_after_commit fs stage hdeps houts

/-- C4 witness: a concrete one-stage commit on a file system where every
path exists and hashes, applied with no later updates. -/
theorem executed_stage_fresh_after_witness :
    (execute_stage ⟨fun _ => true, fun _ => some "h", fun _ => 0⟩ true true
        (fun _ => ⟨false, ""⟩) [] none (fun _ => RunOutcome.ok)
        ⟨"a", "c", ["d"], ["o"], none⟩).1 = ⟨"a", true, false, "completed"⟩
    ∧ ∃ d0,
      (execute_stage ⟨fun _ => true, fun _ => some "h", fun _ => 0⟩ true true
        (fun _ => ⟨false, ""⟩) [] none (fun _ => RunOutcome.ok)
        ⟨"a", "c", ["d"], ["o"], none⟩).2 = some d0
      ∧ is_stage_fresh ⟨fun _ => true, fun _ => some "h", fun _ => 0⟩
          ⟨"a", "c", ["d"], ["o"], none⟩
          ((dget (apply_updates ⟨fun _ => true, fun _ => some "h", fun _ => 0⟩
              d0 []).stages "a").map parse_stage_entry) = true :=
  executed_stage_fresh_after ⟨fun _ => true, fun _ => some "h", fun _ => 0⟩
    (fun _ => ⟨false, ""⟩) [] none (fun _ => RunOutcome.ok)
    ⟨"a", "c", ["d"], ["o"], none⟩ [] rfl rfl (by simp) (by decide) (by decide)

/-! ## Claim C3 -/

/-- C3: when a level contains a failing (not skipped) result, every stage
of that level is still awaited and its result collected and appended to
the accumulated results, and the pipeline-failure error naming the failed
stages is raised after that level completes and before any stage of any
later level is started: the outcome of `execute` is exactly the results
of the preceding levels plus the complete failing level, with the error
message, independent of the levels that follow. -/
theorem execute_fail_after_level (step : String → ExecutionResult)
    (lvl : List String × List String)
    (post : List (List String × List String))
    (hfail : ((execute_level step lvl.1 lvl.2).filter is_failure).isEmpty
      = false) :
    ∀ pre : List (List String × List String),
      (∀ l ∈ pre,
        ((execute_level step l.1 l.2).filter is_failure).isEmpty = true) →
      execute step (pre ++ lvl :: post) =
        ((pre.map (fun l => execute_level step l.1 l.2)).flatten
            ++ execute_level step lvl.1 lvl.2,
         some ("Stage(s) failed: " ++ String.intercalate ", "
           (((execute_level step lvl.1 lvl.2).filter is_failure).map
             (fun r => r.stage_name)))) := by
  obtain ⟨names, completion⟩ := lvl
  dsimp only at hfail ⊢
  intro pre
  induction pre with
  | nil =>
    intro _
    rw [List.nil_append]
    simp only [execute]
    rw [if_neg (by simp [hfail])]
    simp
  | cons l rest ih =>
    intro hpre
    obtain ⟨n2, c2⟩ := l
    rw [List.cons_append]
    simp only [execute]
    have hok : ((execute_level step n2 c2).filter is_failure).isEmpty
        = true := by
      simpa using hpre (n2, c2) (List.mem_cons_self _ _)
    rw [if_pos hok]
    rw [ih (fun l2 h2 => hpre l2 (List.mem_cons_of_mem _ h2))]
    simp [List.append_assoc]

/-- C3 witness: a failing single-stage level is followed by another level;
the run stops with the complete first-level results and the error names
the failed stage, and nothing of the later level appears. -/
theorem execute_fail_after_level_witness :
    execute (fun n => ⟨n, false, false, "boom"⟩)
        [(["a"], ["a"]), (["z"], ["z"])] =
      ([⟨"a", false, false, "boom"⟩], some "Stage(s) failed: a") := by
  have h := execute_fail_after_level (fun n => ⟨n, false, false, "boom"⟩)
    (["a"], ["a"]) [(["z"], ["z"])] (by decide) [] (by simp)
  rw [show ([(["a"], ["a"]), (["z"], ["z"])] :
      List (List String × List String))
    = [] ++ (["a"], ["a"]) :: [(["z"], ["z"])] from rfl, h]
  decide

/-! ## Claim C6 -/

/-- C6 counterexample: for the two-stage level whose deterministic order
is ["a", "b"], the worker completion order ["b", "a"] (a genuine
permutation of the level) yields the result sequence named ["b", "a"],
which is not sorted by stage name and differs from the deterministic
level ordering: `_execute_level` returns results in completion order and
never sorts them. -/
theorem execute_level_unsorted_cx :
    List.Perm (["b", "a"] : List String) ["a", "b"]
    ∧ (execute_level (fun n => ⟨n, true, false, ""⟩) ["a", "b"]
        ["b", "a"]).map (fun r => r.stage_name) = ["b", "a"]
    ∧ (["b", "a"] : List String) ≠ ["a", "b"]
    ∧ ¬ List.Sorted (· ≤ ·)
        ((execute_level (fun n => ⟨n, true, false, ""⟩) ["a", "b"]
          ["b", "a"]).map (fun r => r.stage_name)) := by
  refine ⟨by decide, rfl, by decide, ?_⟩
  intro hs
  have hs2 : List.Sorted (fun a b : String => a ≤ b) ["b", "a"] := hs
  have h1 : ("b" : String) ≤ "a" :=
    (List.sorted_cons.mp hs2).1 "a" (List.mem_singleton.mpr rfl)
  have h3 : ("a" : String) < "b" := String.lt_iff_toList_lt.mpr (by decide)
  exact absurd h1 (not_le.mpr h3)

/-- C6 amended: results of a multi-stage level are returned in worker
completion order with no sorting applied; the returned list is the
completion-order image of the per-stage results, its name sequence is the
completion order itself, and it is a permutation of the level's results
(one result per stage, none lost), but its order depends on worker
completion order rather than on the deterministic level ordering. -/
theorem execute_level_completion_order (step : String → ExecutionResult)
    (names completion : List String)
    (hmulti : ∀ n, names ≠ [n]) (hperm : List.Perm completion names)
    (hname : ∀ n, (step n).stage_name = n) :
    execute_level step names completion = completion.map step
    ∧ (execute_level step names completion).map (fun r => r.stage_name)
        = completion
    ∧ List.Perm (execute_level step names completion) (names.map step) := by
  have he : execute_level step names completion = completion.map step := by
    cases names with
    | nil => rfl
    | cons a l =>
      cases l with
      | nil => exact absurd rfl (hmulti a)
      | cons b t => rfl
  refine ⟨he, ?_, ?_⟩
  · rw [he, List.map_map]
    have hc : ((fun r : ExecutionResult => r.stage_name) ∘ step)
        = fun n => n := funext fun n => hname n
    rw [hc]
    exact List.map_id' completion
  · rw [he]
    exact hperm.map step

/-- C6 witness: the amended statement applied to the concrete two-stage
level with completion order ["b", "a"]. -/
theorem execute_level_completion_order_witness :
    (execute_level (fun n => ⟨n, true, false, ""⟩) ["a", "b"]
        ["b", "a"]).map (fun r => r.stage_name) = ["b", "a"] :=
  (execute_level_completion_order (fun n => ⟨n, true, false, ""⟩)
    ["a", "b"] ["b", "a"]
    (fun n h => by simpa using congrArg List.length h)
    (by decide) (fun n => rfl)).2.1

/-! ## Claim C5 -/

/-- C5: the validation workflow cannot select a force mode, because none
exists: `cli.main` passes the keyword argument `force=validate` to
`ParallelExecutor`, but `ParallelExecutor.__init__` accepts no `force`
keyword parameter (every CLI invocation therefore raises `TypeError`
before any stage runs), and the executor always consults the freshness
check when lock-based checking is enabled: a fresh stage is skipped, not
executed, whatever the configuration. -/
theorem cli_force_keyword_not_accepted :
    ("force" ∈ cliExecutorCallKeywords
      ∧ "force" ∉ parallelExecutorInitKeywords)
    ∧ ∀ (fs : FileSys) (status : String → StageStatus)
        (lock_states : List (String × StageState)) (doc : Option LockDoc)
        (run : String → RunOutcome) (stage : Stage),
        is_stage_fresh fs stage (dget lock_states stage.name) = true →
        (execute_stage fs true true status lock_states doc run
          stage).1.skipped = true := by
  refine ⟨⟨by decide, by decide⟩, ?_⟩
  intro fs status lock_states doc run stage hf
  simp [execute_stage, hf]

/-- C5 witness: a concretely fresh stage is skipped by the executor. -/
theorem cli_force_keyword_not_accepted_witness :
    (execute_stage ⟨fun _ => true, fun _ => none, fun _ => 0⟩ true true
      (fun _ => ⟨false, ""⟩) [("a", ⟨"c", [], []⟩)] none
      (fun _ => RunOutcome.ok) ⟨"a", "c", [], [], none⟩).1.skipped = true :=
  cli_force_keyword_not_accepted.2 ⟨fun _ => true, fun _ => none, fun _ => 0⟩
    (fun _ => ⟨false, ""⟩) [("a", ⟨"c", [], []⟩)] none
    (fun _ => RunOutcome.ok) ⟨"a", "c", [], [], none⟩ (by decide)

/-! ## Claim C8 -/

theorem check_file_hash_md5_none {fs : FileSys} {p : String}
    (hm : fs.md5 p = none) (o : Option FileInfo) :
    check_file_hash fs p o = false := by
  cases o with
  | none => rfl
  | some info =>
    rw [check_file_hash]
    by_cases he : fs.exists_ p = false
    · rw [if_pos he]
    · rw [if_neg he, hm]

/-- C8: a hash-computation failure on a declared dep or out path that
exists on disk maps to a not-fresh verdict, never to a propagated
exception: `_check_file_hash` returns false when the file exists but its
hash cannot be computed, `is_stage_fresh` is then false for the whole
stage whether the path is declared among the deps or among the outs, the
reason function reports "error reading dependency: p" (respectively
"error reading output: p") when such a path is the first failing one,
and in the scheduler post-success hashing the failure does not fail the
stage — the result is success (not skipped) and the path is simply
omitted from both hash dicts that feed the manifest entry. -/
theorem hash_error_not_fresh_and_omitted :
    (∀ (fs : FileSys) (p : String) (info : FileInfo),
      fs.exists_ p = true → fs.md5 p = none →
      check_file_hash fs p (some info) = false)
    ∧ (∀ (fs : FileSys) (stage : Stage) (ls : Option StageState)
        (p : String),
      p ∈ stage.deps ∨ p ∈ stage.outs → fs.md5 p = none →
      is_stage_fresh fs stage ls = false)
    ∧ (∀ (fs : FileSys) (st : StageState) (p : String) (rest : List String)
        (info : FileInfo),
      dget st.deps p = some info → fs.exists_ p = true → fs.md5 p = none →
      reason_deps fs st (p :: rest)
        = some ("error reading dependency: " ++ p))
    ∧ (∀ (fs : FileSys) (st : StageState) (p : String) (rest : List String)
        (info : FileInfo),
      dget st.outs p = some info → fs.exists_ p = true → fs.md5 p = none →
      reason_outs fs st (p :: rest)
        = some ("error reading output: " ++ p))
    ∧ (∀ (fs : FileSys) (status : String → StageStatus)
        (lock_states : List (String × StageState)) (doc : Option LockDoc)
        (run : String → RunOutcome) (stage : Stage) (p : String),
      p ∈ stage.deps ∨ p ∈ stage.outs → fs.md5 p = none →
      run stage.name = RunOutcome.ok →
      (execute_stage fs true true status lock_states doc run
        stage).1.success = true
      ∧ (execute_stage fs true true status lock_states doc run
        stage).1.skipped = false
      ∧ dget (hash_paths fs stage.deps) p = none
      ∧ dget (hash_paths fs stage.outs) p = none) := by
  have hfresh : ∀ (fs : FileSys) (stage : Stage) (ls : Option StageState)
      (p : String), p ∈ stage.deps ∨ p ∈ stage.outs → fs.md5 p = none →
      is_stage_fresh fs stage ls = false := by
    intro fs stage ls p hp hm
    cases ls with
    | none => rfl
    | some st =>
      rw [is_stage_fresh]
      by_cases hc : (stage.cmd == st.cmd) = true
      · rw [if_pos hc]
        rcases hp with hp | hp
        · have hall : stage.deps.all
              (fun q => check_file_hash fs q (dget st.deps q)) = false := by
            apply Bool.eq_false_iff.mpr
            intro hall
            have hq := List.all_eq_true.mp hall p hp
            rw [check_file_hash_md5_none hm] at hq
            exact Bool.noConfusion hq
          rw [hall, Bool.false_and]
        · have hall : stage.outs.all
              (fun q => check_file_hash fs q (dget st.outs q)) = false := by
            apply Bool.eq_false_iff.mpr
            intro hall
            have hq := List.all_eq_true.mp hall p hp
            rw [check_file_hash_md5_none hm] at hq
            exact Bool.noConfusion hq
          rw [hall, Bool.and_false]
      · rw [if_neg hc]
  refine ⟨fun fs p info hx hm => check_file_hash_md5_none hm (some info),
    hfresh, ?_, ?_, ?_⟩
  · intro fs st p rest info hd hx hm
    simp [reason_deps, hd, hx, hm]
  · intro fs st p rest info hd hx hm
    simp [reason_outs, hd, hx, hm]
  · intro fs status lock_states doc run stage p hp hm hrun
    have hsf := hfresh fs stage (dget lock_states stage.name) p hp hm
    exact ⟨by simp [execute_stage, hsf, hrun],
      by simp [execute_stage, hsf, hrun],
      dget_hash_paths_none hm, dget_hash_paths_none hm⟩

/-- C8 witness: a stage declaring the unhashable dependency "d" and the
unhashable output "o" (both existing on disk) runs successfully, is not
marked skipped, and both paths are absent from the post-success hash
dicts. -/
theorem hash_error_not_fresh_and_omitted_witness :
    ((execute_stage ⟨fun _ => true, fun _ => none, fun _ => 0⟩ true true
      (fun _ => ⟨false, ""⟩) [] none (fun _ => RunOutcome.ok)
      ⟨"a", "c", ["d"], ["o"], none⟩).1.success = true
    ∧ (execute_stage ⟨fun _ => true, fun _ => none, fun _ => 0⟩ true true
      (fun _ => ⟨false, ""⟩) [] none (fun _ => RunOutcome.ok)
      ⟨"a", "c", ["d"], ["o"], none⟩).1.skipped = false
    ∧ dget (hash_paths ⟨fun _ => true, fun _ => none, fun _ => 0⟩
        (⟨"a", "c", ["d"], ["o"], none⟩ : Stage).deps) "d" = none
    ∧ dget (hash_paths ⟨fun _ => true, fun _ => none, fun _ => 0⟩
        (⟨"a", "c", ["d"], ["o"], none⟩ : Stage).outs) "d" = none)
    ∧ ((execute_stage ⟨fun _ => true, fun _ => none, fun _ => 0⟩ true true
      (fun _ => ⟨false, ""⟩) [] none (fun _ => RunOutcome.ok)
      ⟨"a", "c", ["d"], ["o"], none⟩).1.success = true
    ∧ (execute_stage ⟨fun _ => true, fun _ => none, fun _ => 0⟩ true true
      (fun _ => ⟨false, ""⟩) [] none (fun _ => RunOutcome.ok)
      ⟨"a", "c", ["d"], ["o"], none⟩).1.skipped = false
    ∧ dget (hash_paths ⟨fun _ => true, fun _ => none, fun _ => 0⟩
        (⟨"a", "c", ["d"], ["o"], none⟩ : Stage).deps) "o" = none
    ∧ dget (hash_paths ⟨fun _ => true, fun _ => none, fun _ => 0⟩
        (⟨"a", "c", ["d"], ["o"], none⟩ : Stage).outs) "o" = none) :=
  ⟨hash_error_not_fresh_and_omitted.2.2.2.2
    ⟨fun _ => true, fun _ => none, fun _ => 0⟩ (fun _ => ⟨false, ""⟩) []
    none (fun _ => RunOutcome.ok) ⟨"a", "c", ["d"], ["o"], none⟩ "d"
    (Or.inl (by decide)) rfl rfl,
   hash_error_not_fresh_and_omitted.2.2.2.2
    ⟨fun _ => true, fun _ => none, fun _ => 0⟩ (fun _ => ⟨false, ""⟩) []
    none (fun _ => RunOutcome.ok) ⟨"a", "c", ["d"], ["o"], none⟩ "o"
    (Or.inr (by decide)) rfl rfl⟩

/-! ## Claim C10 -/

theorem execute_stage_skip_success (fs : FileSys) (use_lock has_writer : Bool)
    (status : String → StageStatus)
    (lock_states : List (String × StageState)) (doc : Option LockDoc)
    (run : String → RunOutcome) (stage : Stage) :
    (execute_stage fs use_lock has_writer status lock_states doc run
      stage).1.skipped = true →
    (execute_stage fs use_lock has_writer status lock_states doc run
      stage).1.success = true := by
  simp only [execute_stage]
  split
  · intro _
    rfl
  · split
    · intro h
      exact h
    · split
      · intro _
        rfl
      · intro _
        rfl

theorem execute_level_result_mem {step : String → ExecutionResult}
    {names completion : List String} {r : ExecutionResult}
    (h : r ∈ execute_level step names completion) : ∃ n, r = step n := by
  cases names with
  | nil =>
    have h2 : r ∈ completion.map step := by simpa [execute_level] using h
    rcases List.mem_map.mp h2 with ⟨n, _, he⟩
    exact ⟨n, he.symm⟩
  | cons a l =>
    cases l with
    | nil => exact ⟨a, by simpa [execute_level] using h⟩
    | cons b t =>
      have h2 : r ∈ completion.map step := by simpa [execute_level] using h
      rcases List.mem_map.mp h2 with ⟨n, _, he⟩
      exact ⟨n, he.symm⟩

theorem execute_result_mem {step : String → ExecutionResult} :
    ∀ {levels : List (List String × List String)} {r : ExecutionResult},
      r ∈ (execute step levels).1 → ∃ n, r = step n := by
  intro levels
  induction levels with
  | nil =>
    intro r h
    simp [execute] at h
  | cons lv rest ih =>
    intro r h
    obtain ⟨names, completion⟩ := lv
    simp only [execute] at h
    by_cases hc : ((execute_level step names completion).filter
        is_failure).isEmpty = true
    · rw [if_pos hc] at h
      rcases List.mem_append.mp h with h2 | h2
      · exact execute_level_result_mem h2
      · exact ih h2
    · rw [if_neg hc] at h
      exact execute_level_result_mem h

/-- C10: every result produced by the executor satisfies the invariant
skipped implies success — a result is marked skipped only on the
freshness-check paths of `_execute_stage`, where success is
simultaneously set to true, so no result is ever both skipped and
failed. -/
theorem execute_results_skipped_implies_success (fs : FileSys)
    (use_lock has_writer : Bool) (status : String → StageStatus)
    (lock_states : List (String × StageState)) (doc : Option LockDoc)
    (run : String → RunOutcome) (getStage : String → Stage)
    (levels : List (List String × List String)) :
    ∀ r ∈ (execute (fun n => (execute_stage fs use_lock has_writer status
        lock_states doc run (getStage n)).1) levels).1,
      r.skipped = true → r.success = true := by
  intro r hr hsk
  rcases execute_result_mem hr with ⟨n, he⟩
  subst he
  exact execute_stage_skip_success fs use_lock has_writer status lock_states
    doc run (getStage n) hsk

/-- C10 witness: a concretely skipped result of a one-stage run is
successful. -/
theorem execute_results_skipped_implies_success_witness :
    (⟨"a", true, true, "up to date"⟩ : ExecutionResult).success = true :=
  execute_results_skipped_implies_success
    ⟨fun _ => true, fun _ => none, fun _ => 0⟩ false true
    (fun _ => ⟨true, "up to date"⟩) [] none (fun _ => RunOutcome.ok)
    (fun n => ⟨n, "c", [], [], none⟩) [(["a"], ["a"])]
    ⟨"a", true, true, "up to date"⟩ (by decide) rfl

end DvcRun
